import Mathlib

/-!
Verification of the bm25-go BM25 scoring library.

The Go package `bm25` provides a shared indexing base (`Bm25Base` in
`bm25/bm25.go`): corpus construction with per-document tokenization,
document-frequency accumulation, corpus statistics, and cached IDF
computation.  Scorer variants (BM25L, ...) implement `GetScores`,
`GetBatchScores` and `GetTopN` on top of the base; the variant scorer
code itself is not part of the base file, so the scorer operations are
modelled from the specification's shared contract (§4.3/§4.4) and pinned
by the repository's BM25L tests.

Machine floats (`float64`) are embedded as real numbers `ℝ`, `math.Log`
as `Real.log`.  Go maps are embedded as association lists with a
first-match lookup; a Go map write `m[k] = v` is `setKV`, `m[k]++` on a
fresh-or-existing key is `incrKey`.  Fallible Go functions returning
`(T, error)` are embedded as `Except Bm25Error T`.
-/

/-- The error conditions of the bm25 package, one constructor per
distinct validation failure named in the error taxonomy. -/
inductive Bm25Error where
  | emptyCorpus : Bm25Error
  | nilTokenizer : Bm25Error
  | emptyTokenization : Nat → Bm25Error
  | emptyTerm : Bm25Error
  | emptyQuery : Bm25Error
  | emptyDocumentIDs : Bm25Error
  | invalidDocumentID : Int → Bm25Error
  | invalidN : Bm25Error
  | invalidK1 : Bm25Error
  | invalidB : Bm25Error
  deriving DecidableEq, Repr

/-- First-match lookup in an association list, the embedding of a Go map
read `v, ok := m[k]`. -/
def lookupKV {β : Type} : List (String × β) → String → Option β
  | [], _ => none
  | (k', v) :: rest, k => if k' = k then some v else lookupKV rest k

/-- Embedding of the Go map write `m[k] = v`: replace the value at `k`
if present, append the binding otherwise. -/
def setKV {β : Type} : List (String × β) → String → β → List (String × β)
  | [], k, v => [(k, v)]
  | (k', v') :: rest, k, v =>
      if k' = k then (k', v) :: rest else (k', v') :: setKV rest k v

/-- Embedding of the Go map increment `m[k]++` on an integer-valued map
(an absent key reads as zero, so it becomes `1`). -/
def incrKey : List (String × Nat) → String → List (String × Nat)
  | [], k => [(k, 1)]
  | (k', v) :: rest, k =>
      if k' = k then (k', v + 1) :: rest else (k', v) :: incrKey rest k

/-- The deduplicating inner loop of `NewBM25Base` (bm25.go lines 61-68):
walk the document's tokens with a `seenTokens` set, incrementing the
document-frequency map once per distinct token. -/
def addDocTokens : List (String × Nat) → List String → List String → List (String × Nat)
  | tf, _, [] => tf
  | tf, seen, t :: rest =>
      if t ∈ seen then addDocTokens tf seen rest
      else addDocTokens (incrKey tf t) (t :: seen) rest

/-- The base index built by `NewBM25Base` (bm25.go lines 22-31): tokenized
corpus, corpus size, average document length, per-document lengths, the
document-frequency map `termFreqs`, and the IDF memoization cache. -/
structure Bm25Base where
  corpus : List (List String)
  corpusSize : Nat
  avgDocLen : ℝ
  docLengths : List Nat
  termFreqs : List (String × Nat)
  idfCache : List (String × ℝ)

/-- The per-document loop of `NewBM25Base` (bm25.go lines 51-69), carrying
the running document index for the `EmptyTokenization` error message.
Returns the tokenized corpus, the document lengths, the total token
count, and the accumulated document-frequency map. -/
def processDocs (tokenize : String → List String) :
    Nat → List String → List (String × Nat) →
    Except Bm25Error (List (List String) × List Nat × Nat × List (String × Nat))
  | _, [], tf => .ok ([], [], 0, tf)
  | i, d :: rest, tf =>
      let tokens := tokenize d
      if tokens = [] then .error (.emptyTokenization i)
      else
        match processDocs tokenize (i + 1) rest (addDocTokens tf [] tokens) with
        | .error e => .error e
        | .ok (cs, lens, tot, tf') =>
            .ok (tokens :: cs, tokens.length :: lens, tokens.length + tot, tf')

/-- `NewBM25Base` (bm25.go lines 33-79).  The Go tokenizer argument is a
possibly-nil function value, embedded as an `Option`. -/
noncomputable def NewBM25Base (corpus : List String)
    (tokenize : Option (String → List String)) : Except Bm25Error Bm25Base :=
  if corpus = [] then .error .emptyCorpus
  else
    match tokenize with
    | none => .error .nilTokenizer
    | some f =>
        match processDocs f 0 corpus [] with
        | .error e => .error e
        | .ok (cs, lens, tot, tf) =>
            .ok { corpus := cs
                  corpusSize := corpus.length
                  avgDocLen := (tot : ℝ) / (corpus.length : ℝ)
                  docLengths := lens
                  termFreqs := tf
                  idfCache := [] }

/-- `Bm25Base.IDF` (bm25.go lines 96-133).  The Go method mutates the
receiver's `idfCache`; the embedding returns the updated base alongside
the value. -/
noncomputable def IDF (b : Bm25Base) (term : String) :
    Except Bm25Error (ℝ × Bm25Base) :=
  if term = "" then .error .emptyTerm
  else
    match lookupKV b.idfCache term with
    | some idf => .ok (idf, b)
    | none =>
        match lookupKV b.termFreqs term with
        | none => .ok (0, { b with idfCache := setKV b.idfCache term 0 })
        | some termFreq =>
            if termFreq = 0 then
              .ok (0, { b with idfCache := setKV b.idfCache term 0 })
            else if termFreq = b.corpusSize then
              let idf : ℝ := Real.log (0.5 / ((termFreq : ℝ) + 0.5))
              .ok (idf, { b with idfCache := setKV b.idfCache term idf })
            else
              let idf : ℝ :=
                Real.log ((((b.corpusSize : ℝ) - (termFreq : ℝ) + 0.5) /
                  ((termFreq : ℝ) + 0.5)) + 1.0)
              .ok (idf, { b with idfCache := setKV b.idfCache term idf })

/-- The pure value `IDF` computes for a term on a cache miss, as a
function of the immutable corpus statistics (bm25.go lines 106-132). -/
noncomputable def idfValue (b : Bm25Base) (term : String) : ℝ :=
  match lookupKV b.termFreqs term with
  | none => 0
  | some termFreq =>
      if termFreq = 0 then 0
      else if termFreq = b.corpusSize then
        Real.log (0.5 / ((termFreq : ℝ) + 0.5))
      else
        Real.log ((((b.corpusSize : ℝ) - (termFreq : ℝ) + 0.5) /
          ((termFreq : ℝ) + 0.5)) + 1.0)

/-- Modelled from the spec: a BM25L scorer instance (§2, §3, §4.4).  The
variant scorer source is not in the base file; per §3 the scorer retains
the raw document text for `GetTopN` and owns its tuning floats `k1`, `b`
alongside the shared base index. -/
structure BM25L where
  base : Bm25Base
  rawCorpus : List String
  k1 : ℝ
  b : ℝ

/-- Modelled from the spec: BM25L construction (§4.4, pinned by
`TestNewBM25L`): fails with `InvalidK1` when `k1 < 0`, with `InvalidB`
when `b` is outside `[0, 1]`, and otherwise builds the shared base index
via `NewBM25Base`, retaining the raw corpus. -/
noncomputable def NewBM25L (corpus : List String)
    (tokenize : Option (String → List String)) (k1 b : ℝ) :
    Except Bm25Error BM25L :=
  if k1 < 0 then .error .invalidK1
  else if b < 0 ∨ 1 < b then .error .invalidB
  else
    match NewBM25Base corpus tokenize with
    | .error e => .error e
    | .ok base => .ok { base := base, rawCorpus := corpus, k1 := k1, b := b }

/-- Raw frequency `f(t,d)` of a term in document `d`'s token sequence
(§4.4); out-of-range documents read as empty. -/
def termCount (s : BM25L) (d : Nat) (t : String) : Nat :=
  (s.base.corpus.getD d []).count t

/-- Modelled from the spec: the BM25L per-term contribution to document
`d` (§4.4): `idf(t) * ((k1+1)*c) / (k1 + c)` with the length-corrected
frequency `c = f(t,d) / (1 - b + b*|d|/avgdl)`. -/
noncomputable def bm25lTerm (s : BM25L) (t : String) (d : Nat) : ℝ :=
  let f : ℝ := (termCount s d t : ℝ)
  let c : ℝ := f / (1 - s.b + s.b * ((s.base.docLengths.getD d 0 : ℝ) / s.base.avgDocLen))
  idfValue s.base t * ((s.k1 + 1) * c) / (s.k1 + c)

/-- Modelled from the spec: the full score of document `d` for a query —
the sum over query terms of that term's contribution (§4.3). -/
noncomputable def docScore (s : BM25L) (query : List String) (d : Nat) : ℝ :=
  (query.map (fun t => bm25lTerm s t d)).sum

/-- Modelled from the spec: `GetScores` (§4.3): `EmptyQuery` on an empty
query, otherwise one score per corpus document in document-ID order. -/
noncomputable def GetScores (s : BM25L) (query : List String) :
    Except Bm25Error (List ℝ) :=
  if query = [] then .error .emptyQuery
  else .ok ((List.range s.base.corpusSize).map (docScore s query))

/-- Modelled from the spec: `GetBatchScores` (§4.3): validates the query,
the ID list being non-empty, and every ID being in `[0, corpusSize)`,
then scores exactly the requested documents in the given order. -/
noncomputable def GetBatchScores (s : BM25L) (query : List String)
    (docIDs : List Int) : Except Bm25Error (List ℝ) :=
  if query = [] then .error .emptyQuery
  else if docIDs = [] then .error .emptyDocumentIDs
  else
    match docIDs.find? (fun id => decide (id < 0 ∨ (s.base.corpusSize : Int) ≤ id)) with
    | some bad => .error (.invalidDocumentID bad)
    | none => .ok (docIDs.map (fun id => docScore s query id.toNat))

/-- The ranking order on `(document ID, score)` pairs (§4.3 `GetTopN`):
higher score first, ties broken by ascending document ID. -/
def rankRel (a b : Nat × ℝ) : Prop :=
  b.2 < a.2 ∨ (b.2 = a.2 ∧ a.1 ≤ b.1)

noncomputable instance : DecidableRel rankRel := fun _ _ => by
  unfold rankRel; infer_instance

instance : IsTotal (Nat × ℝ) rankRel where
  total a b := by
    unfold rankRel
    rcases lt_trichotomy a.2 b.2 with h | h | h
    · exact .inr (.inl h)
    · rcases Nat.le_total a.1 b.1 with h1 | h1
      · exact .inl (.inr ⟨h.symm, h1⟩)
      · exact .inr (.inr ⟨h, h1⟩)
    · exact .inl (.inl h)

instance : IsTrans (Nat × ℝ) rankRel where
  trans a b c hab hbc := by
    unfold rankRel at *
    rcases hab with h1 | ⟨h1, h1i⟩
    · rcases hbc with h2 | ⟨h2, _⟩
      · exact .inl (h2.trans h1)
      · exact .inl (h2.trans_lt h1)
    · rcases hbc with h2 | ⟨h2, h2i⟩
      · exact .inl (h2.trans_eq h1)
      · exact .inr ⟨h2.trans h1, h1i.trans h2i⟩

/-- Modelled from the spec: rank all document IDs by descending score
with ascending-ID tie-breaks (§4.3, Design Notes: stable selection with
document ID as the explicit secondary key). -/
noncomputable def rankedIDs (scores : List ℝ) : List Nat :=
  (List.insertionSort rankRel
    ((List.range scores.length).map (fun i => (i, scores.getD i 0)))).map Prod.fst

/-- Modelled from the spec: `GetTopN` (§4.3): `EmptyQuery` on an empty
query, `InvalidN` when `n <= 0`, otherwise the literal original text of
the `min(n, corpusSize)` best-ranked documents. -/
noncomputable def GetTopN (s : BM25L) (query : List String) (n : Int) :
    Except Bm25Error (List String) :=
  if query = [] then .error .emptyQuery
  else if n ≤ 0 then .error .invalidN
  else
    match GetScores s query with
    | .error e => .error e
    | .ok scores =>
        .ok (((rankedIDs scores).take n.toNat).map (fun i => s.rawCorpus.getD i ""))

/-- Reading an integer-valued map the way Go does on the right-hand side
of `m[k]++`: an absent key reads as zero. -/
def getCount (m : List (String × Nat)) (t : String) : Nat :=
  (lookupKV m t).getD 0

/-- The document-frequency maps built by construction never have a
duplicated key. -/
def keysNodup {β : Type} (m : List (String × β)) : Prop :=
  (m.map Prod.fst).Nodup

lemma lookupKV_setKV_self {β : Type} (m : List (String × β)) (k : String) (v : β) :
    lookupKV (setKV m k v) k = some v := by
  induction m with
  | nil => simp [setKV, lookupKV]
  | cons p rest ih =>
      obtain ⟨k', v'⟩ := p
      by_cases hk : k' = k
      · simp [setKV, hk, lookupKV]
      · simp [setKV, hk, lookupKV, ih]

lemma getCount_incrKey_self (m : List (String × Nat)) (k : String) :
    getCount (incrKey m k) k = getCount m k + 1 := by
  induction m with
  | nil => simp [incrKey, getCount, lookupKV]
  | cons p rest ih =>
      obtain ⟨k', v'⟩ := p
      by_cases hk : k' = k
      · simp [incrKey, hk, getCount, lookupKV]
      · simp [incrKey, hk, getCount, lookupKV] at ih ⊢
        exact ih

lemma getCount_incrKey_ne (m : List (String × Nat)) (k t : String) (h : t ≠ k) :
    getCount (incrKey m k) t = getCount m t := by
  have hk' : k ≠ t := fun h' => h h'.symm
  induction m with
  | nil => simp [incrKey, getCount, lookupKV, hk']
  | cons p rest ih =>
      obtain ⟨k'', v'⟩ := p
      by_cases hkk : k'' = k
      · subst hkk
        simp [incrKey, getCount, lookupKV, hk']
      · by_cases ht : k'' = t
        · subst ht
          simp [incrKey, hkk, getCount, lookupKV]
        · simpa [incrKey, hkk, getCount, lookupKV, ht] using ih

lemma getCount_addDocTokens (tokens : List String) :
    ∀ (tf : List (String × Nat)) (seen : List String) (t : String),
    getCount (addDocTokens tf seen tokens) t =
      getCount tf t + (if t ∈ tokens ∧ t ∉ seen then 1 else 0) := by
  induction tokens with
  | nil => intro tf seen t; simp [addDocTokens]
  | cons s rest ih =>
      intro tf seen t
      by_cases hs : s ∈ seen
      · rw [addDocTokens, if_pos hs, ih]
        by_cases hts : t = s
        · subst hts
          simp [hs]
        · simp [hts, List.mem_cons]
      · rw [addDocTokens, if_neg hs, ih]
        by_cases hts : t = s
        · subst hts
          simp [getCount_incrKey_self, hs]
        · rw [getCount_incrKey_ne _ _ _ hts]
          simp [hts, List.mem_cons]

lemma getCount_foldDocs (f : String → List String) (docs : List String) :
    ∀ (tf : List (String × Nat)) (t : String),
    getCount (docs.foldl (fun acc d => addDocTokens acc [] (f d)) tf) t =
      getCount tf t + docs.countP (fun d => decide (t ∈ f d)) := by
  induction docs with
  | nil => intro tf t; simp
  | cons d rest ih =>
      intro tf t
      rw [List.foldl_cons, ih, List.countP_cons, getCount_addDocTokens]
      by_cases hd : t ∈ f d
      · simp [hd]
        omega
      · simp [hd]

lemma processDocs_ok_char (f : String → List String) (docs : List String) :
    ∀ (i : Nat) (tf : List (String × Nat)) (cs : List (List String))
      (lens : List Nat) (tot : Nat) (tf' : List (String × Nat)),
    processDocs f i docs tf = .ok (cs, lens, tot, tf') →
    cs = docs.map f ∧ lens = docs.map (fun d => (f d).length) ∧
    tot = (docs.map (fun d => (f d).length)).sum ∧
    tf' = docs.foldl (fun acc d => addDocTokens acc [] (f d)) tf := by
  induction docs with
  | nil =>
      intro i tf cs lens tot tf' h
      rw [processDocs] at h
      cases h
      simp
  | cons d rest ih =>
      intro i tf cs lens tot tf' h
      rw [processDocs] at h
      by_cases hd : f d = []
      · rw [if_pos hd] at h
        cases h
      · rw [if_neg hd] at h
        cases hrec : processDocs f (i + 1) rest (addDocTokens tf [] (f d)) with
        | error e => rw [hrec] at h; cases h
        | ok out =>
            obtain ⟨cs1, lens1, tot1, tf1⟩ := out
            obtain ⟨h1, h2, h3, h4⟩ := ih (i + 1) (addDocTokens tf [] (f d)) cs1 lens1 tot1 tf1 hrec
            subst h1; subst h2; subst h3; subst h4
            rw [hrec] at h
            cases h
            simp

lemma processDocs_ok_of_all (f : String → List String) (docs : List String) :
    ∀ (i : Nat) (tf : List (String × Nat)),
    (∀ d ∈ docs, f d ≠ []) →
    ∃ out, processDocs f i docs tf = .ok out := by
  induction docs with
  | nil => intro i tf _; exact ⟨_, rfl⟩
  | cons d rest ih =>
      intro i tf hall
      have hd : f d ≠ [] := hall d (List.mem_cons_self d rest)
      obtain ⟨out, hout⟩ := ih (i + 1) (addDocTokens tf [] (f d))
        (fun d' hd' => hall d' (List.mem_cons_of_mem d hd'))
      obtain ⟨cs1, lens1, tot1, tf1⟩ := out
      refine ⟨(f d :: cs1, (f d).length :: lens1, (f d).length + tot1, tf1), ?_⟩
      rw [processDocs, if_neg hd, hout]

lemma processDocs_error_at (f : String → List String) (docs : List String) :
    ∀ (i j : Nat) (tf : List (String × Nat)),
    j < docs.length → f (docs.getD j "") = [] →
    (∀ j', j' < j → f (docs.getD j' "") ≠ []) →
    processDocs f i docs tf = .error (.emptyTokenization (i + j)) := by
  induction docs with
  | nil => intro i j tf hj; simp at hj
  | cons d rest ih =>
      intro i j tf hj hempty hfirst
      match j with
      | 0 =>
          rw [processDocs]
          simp only [List.getD_cons_zero] at hempty
          rw [if_pos hempty, Nat.add_zero]
      | j' + 1 =>
          have hd : f d ≠ [] := by
            have := hfirst 0 (Nat.succ_pos j')
            simpa using this
          rw [processDocs, if_neg hd]
          have hrec := ih (i + 1) j' (addDocTokens tf [] (f d))
            (by simpa using Nat.lt_of_succ_lt_succ hj)
            (by simpa using hempty)
            (fun j'' hj'' => by
              have := hfirst (j'' + 1) (Nat.succ_lt_succ hj'')
              simpa using this)
          rw [hrec]
          have : i + 1 + j' = i + (j' + 1) := by omega
          rw [this]

lemma incrKey_pos (m : List (String × Nat)) (k : String)
    (h : ∀ p ∈ m, 1 ≤ p.2) : ∀ p ∈ incrKey m k, 1 ≤ p.2 := by
  induction m with
  | nil =>
      intro p hp
      simp [incrKey] at hp
      simp [hp]
  | cons q rest ih =>
      obtain ⟨k', v'⟩ := q
      intro p hp
      by_cases hk : k' = k
      · rw [incrKey, if_pos hk] at hp
        rcases List.mem_cons.mp hp with h1 | h1
        · simp [h1]
        · exact h p (List.mem_cons_of_mem _ h1)
      · rw [incrKey, if_neg hk] at hp
        rcases List.mem_cons.mp hp with h1 | h1
        · exact h p (h1 ▸ List.mem_cons_self _ _)
        · exact ih (fun q hq => h q (List.mem_cons_of_mem _ hq)) p h1

lemma addDocTokens_pos (tokens : List String) :
    ∀ (tf : List (String × Nat)) (seen : List String),
    (∀ p ∈ tf, 1 ≤ p.2) → ∀ p ∈ addDocTokens tf seen tokens, 1 ≤ p.2 := by
  induction tokens with
  | nil => intro tf seen h; simpa [addDocTokens] using h
  | cons t rest ih =>
      intro tf seen h
      by_cases ht : t ∈ seen
      · rw [addDocTokens, if_pos ht]
        exact ih tf seen h
      · rw [addDocTokens, if_neg ht]
        exact ih (incrKey tf t) (t :: seen) (incrKey_pos tf t h)

lemma foldDocs_pos (f : String → List String) (docs : List String) :
    ∀ (tf : List (String × Nat)),
    (∀ p ∈ tf, 1 ≤ p.2) →
    ∀ p ∈ docs.foldl (fun acc d => addDocTokens acc [] (f d)) tf, 1 ≤ p.2 := by
  induction docs with
  | nil => intro tf h; simpa using h
  | cons d rest ih =>
      intro tf h
      rw [List.foldl_cons]
      exact ih (addDocTokens tf [] (f d)) (addDocTokens_pos (f d) tf [] h)

lemma mem_fst_incrKey (m : List (String × Nat)) (k t : String)
    (h : t ∈ (incrKey m k).map Prod.fst) : t ∈ m.map Prod.fst ∨ t = k := by
  induction m with
  | nil =>
      simp [incrKey] at h
      exact .inr h
  | cons q rest ih =>
      obtain ⟨k', v'⟩ := q
      by_cases hk : k' = k
      · rw [incrKey, if_pos hk] at h
        rw [List.map_cons, List.mem_cons] at h ⊢
        exact .inl h
      · rw [incrKey, if_neg hk] at h
        rw [List.map_cons, List.mem_cons] at h
        rcases h with h1 | h1
        · exact .inl (by rw [List.map_cons, List.mem_cons]; exact .inl h1)
        · rcases ih h1 with h2 | h2
          · exact .inl (by rw [List.map_cons, List.mem_cons]; exact .inr h2)
          · exact .inr h2

lemma incrKey_keysNodup (m : List (String × Nat)) (k : String)
    (h : keysNodup m) : keysNodup (incrKey m k) := by
  induction m with
  | nil => simp [incrKey, keysNodup]
  | cons q rest ih =>
      obtain ⟨k', v'⟩ := q
      rw [keysNodup, List.map_cons, List.nodup_cons] at h
      obtain ⟨hnot, hrest⟩ := h
      by_cases hk : k' = k
      · rw [keysNodup, incrKey, if_pos hk, List.map_cons, List.nodup_cons]
        exact ⟨hnot, hrest⟩
      · rw [keysNodup, incrKey, if_neg hk, List.map_cons, List.nodup_cons]
        refine ⟨fun hmem => ?_, ih hrest⟩
        rcases mem_fst_incrKey rest k k' hmem with h1 | h1
        · exact hnot h1
        · exact hk h1

lemma addDocTokens_keysNodup (tokens : List String) :
    ∀ (tf : List (String × Nat)) (seen : List String),
    keysNodup tf → keysNodup (addDocTokens tf seen tokens) := by
  induction tokens with
  | nil => intro tf seen h; simpa [addDocTokens] using h
  | cons t rest ih =>
      intro tf seen h
      by_cases ht : t ∈ seen
      · rw [addDocTokens, if_pos ht]; exact ih tf seen h
      · rw [addDocTokens, if_neg ht]
        exact ih (incrKey tf t) (t :: seen) (incrKey_keysNodup tf t h)

lemma foldDocs_keysNodup (f : String → List String) (docs : List String) :
    ∀ (tf : List (String × Nat)), keysNodup tf →
    keysNodup (docs.foldl (fun acc d => addDocTokens acc [] (f d)) tf) := by
  induction docs with
  | nil => intro tf h; simpa using h
  | cons d rest ih =>
      intro tf h
      rw [List.foldl_cons]
      exact ih (addDocTokens tf [] (f d)) (addDocTokens_keysNodup (f d) tf [] h)

lemma lookupKV_of_mem {β : Type} (m : List (String × β)) (k : String) (v : β)
    (hnd : keysNodup m) (hmem : (k, v) ∈ m) : lookupKV m k = some v := by
  induction m with
  | nil => simp at hmem
  | cons q rest ih =>
      obtain ⟨k', v'⟩ := q
      rw [keysNodup, List.map_cons, List.nodup_cons] at hnd
      obtain ⟨hnot, hrest⟩ := hnd
      rcases List.mem_cons.mp hmem with h1 | h1
      · obtain ⟨hk, hv⟩ := Prod.mk.injEq .. ▸ h1
        cases h1
        simp [lookupKV]
      · have hk : k' ≠ k := by
          intro hkk
          subst hkk
          exact hnot (List.mem_map.mpr ⟨(k', v), h1, rfl⟩)
        rw [lookupKV, if_neg hk]
        exact ih hrest h1

lemma lookupKV_mem {β : Type} (m : List (String × β)) (k : String) (v : β)
    (h : lookupKV m k = some v) : (k, v) ∈ m := by
  induction m with
  | nil => simp [lookupKV] at h
  | cons q rest ih =>
      obtain ⟨k', v'⟩ := q
      by_cases hk : k' = k
      · rw [lookupKV, if_pos hk] at h
        cases h
        subst hk
        exact List.mem_cons_self _ _
      · rw [lookupKV, if_neg hk] at h
        exact List.mem_cons_of_mem _ (ih h)

lemma idf_all_neg (tfq : Nat) (h : 1 ≤ tfq) :
    Real.log (0.5 / ((tfq : ℝ) + 0.5)) < 0 := by
  apply Real.log_neg
  · positivity
  · rw [div_lt_one (by positivity)]
    have h1 : (1 : ℝ) ≤ (tfq : ℝ) := by exact_mod_cast h
    linarith

lemma idf_std_pos (n tfq : Nat) (h0 : 0 < tfq) (hn : tfq < n) :
    0 < Real.log ((((n : ℝ) - (tfq : ℝ) + 0.5) / ((tfq : ℝ) + 0.5)) + 1.0) := by
  apply Real.log_pos
  have hcast : (tfq : ℝ) < (n : ℝ) := by exact_mod_cast hn
  have hnum : (0 : ℝ) < (n : ℝ) - (tfq : ℝ) + 0.5 := by linarith
  have hden : (0 : ℝ) < (tfq : ℝ) + 0.5 := by positivity
  have hq := div_pos hnum hden
  linarith

/-- C4: For every non-empty term whose document frequency equals
`corpusSize` (the term appears in every document), `IDF` computes
`ln(0.5 / (documentFrequency[term] + 0.5))` — a formula that depends on
the document frequency alone and ignores `corpusSize` — returns it
without error, the value is strictly negative, and the value is stored
in the IDF cache under the term. -/
theorem idf_allDocsBranch (b : Bm25Base) (term : String) (termFreq : Nat)
    (hterm : term ≠ "") (hmiss : lookupKV b.idfCache term = none)
    (hfreq : lookupKV b.termFreqs term = some termFreq)
    (hall : termFreq = b.corpusSize) (hpos : 0 < b.corpusSize) :
    IDF b term = .ok (Real.log (0.5 / ((termFreq : ℝ) + 0.5)),
      { b with idfCache :=
          setKV b.idfCache term (Real.log (0.5 / ((termFreq : ℝ) + 0.5))) }) ∧
    Real.log (0.5 / ((termFreq : ℝ) + 0.5)) < 0 ∧
    lookupKV (setKV b.idfCache term (Real.log (0.5 / ((termFreq : ℝ) + 0.5))))
      term = some (Real.log (0.5 / ((termFreq : ℝ) + 0.5))) := by
  have h0 : termFreq ≠ 0 := by omega
  refine ⟨?_, idf_all_neg termFreq (by omega), lookupKV_setKV_self _ _ _⟩
  unfold IDF
  rw [if_neg hterm]
  simp only [hmiss, hfreq, if_neg h0, if_pos hall]

/-- C5: For every non-empty term whose document frequency satisfies
`0 < df < corpusSize`, `IDF` computes the smoothed value
`ln((corpusSize - df + 0.5) / (df + 0.5) + 1.0)`, returns it without
error (caching it), and the value is strictly positive. -/
theorem idf_standardBranch (b : Bm25Base) (term : String) (termFreq : Nat)
    (hterm : term ≠ "") (hmiss : lookupKV b.idfCache term = none)
    (hfreq : lookupKV b.termFreqs term = some termFreq)
    (hlo : 0 < termFreq) (hhi : termFreq < b.corpusSize) :
    IDF b term = .ok (Real.log ((((b.corpusSize : ℝ) - (termFreq : ℝ) + 0.5) /
        ((termFreq : ℝ) + 0.5)) + 1.0),
      { b with idfCache := setKV b.idfCache term (Real.log
          ((((b.corpusSize : ℝ) - (termFreq : ℝ) + 0.5) /
            ((termFreq : ℝ) + 0.5)) + 1.0)) }) ∧
    0 < Real.log ((((b.corpusSize : ℝ) - (termFreq : ℝ) + 0.5) /
        ((termFreq : ℝ) + 0.5)) + 1.0) := by
  have h0 : termFreq ≠ 0 := by omega
  have hne : termFreq ≠ b.corpusSize := by omega
  refine ⟨?_, idf_std_pos b.corpusSize termFreq hlo hhi⟩
  unfold IDF
  rw [if_neg hterm]
  simp only [hmiss, hfreq, if_neg h0, if_neg hne]

/-- C6: `IDF` fails with `EmptyTerm` exactly when the term is the empty
string; and a non-empty term absent from the document-frequency table
(on a cache miss) yields `0.0` without error, cached under the term. -/
theorem idf_emptyTerm_absent (b : Bm25Base) (term : String) :
    (IDF b term = .error .emptyTerm ↔ term = "") ∧
    (term ≠ "" → lookupKV b.idfCache term = none →
      lookupKV b.termFreqs term = none →
      IDF b term = .ok (0, { b with idfCache := setKV b.idfCache term 0 })) := by
  constructor
  · constructor
    · intro h
      by_contra hne
      unfold IDF at h
      rw [if_neg hne] at h
      cases hc : lookupKV b.idfCache term with
      | some v => simp only [hc] at h; exact Except.noConfusion h
      | none =>
          simp only [hc] at h
          cases hf : lookupKV b.termFreqs term with
          | none => simp only [hf] at h; exact Except.noConfusion h
          | some v =>
              simp only [hf] at h
              by_cases h0 : v = 0
              · simp only [if_pos h0] at h
                exact Except.noConfusion h
              · simp only [if_neg h0] at h
                by_cases hn : v = b.corpusSize
                · simp only [if_pos hn] at h
                  exact Except.noConfusion h
                · simp only [if_neg hn] at h
                  exact Except.noConfusion h
    · intro h
      unfold IDF
      rw [if_pos h]
  · intro hne hmiss habs
    unfold IDF
    rw [if_neg hne]
    simp only [hmiss, habs]

/-- C9: `IDF` never mutates the corpus statistics: a successful call
leaves `corpus`, `corpusSize`, `avgDocLen`, `docLengths` and `termFreqs`
unchanged, and either leaves the cache untouched (a hit) or inserts the
returned value under the previously-absent term (a miss); the returned
value is always stored in the resulting cache before being returned, and
a subsequent call with the same term returns the stored value with no
further change. -/
theorem idf_frame (b : Bm25Base) (term : String) (r : ℝ) (b' : Bm25Base)
    (h : IDF b term = .ok (r, b')) :
    b'.corpus = b.corpus ∧ b'.corpusSize = b.corpusSize ∧
    b'.avgDocLen = b.avgDocLen ∧ b'.docLengths = b.docLengths ∧
    b'.termFreqs = b.termFreqs ∧
    (b'.idfCache = b.idfCache ∨
      (lookupKV b.idfCache term = none ∧ b'.idfCache = setKV b.idfCache term r)) ∧
    lookupKV b'.idfCache term = some r ∧
    IDF b' term = .ok (r, b') := by
  have hterm : term ≠ "" := by
    intro he
    unfold IDF at h
    rw [if_pos he] at h
    cases h
  have hself : ∀ (bx : Bm25Base), lookupKV bx.idfCache term = some r →
      IDF bx term = .ok (r, bx) := by
    intro bx hx
    unfold IDF
    rw [if_neg hterm, hx]
  unfold IDF at h
  rw [if_neg hterm] at h
  cases hc : lookupKV b.idfCache term with
  | some v =>
      simp only [hc] at h
      cases h
      exact ⟨rfl, rfl, rfl, rfl, rfl, .inl rfl, hc, hself b hc⟩
  | none =>
      simp only [hc] at h
      cases hf : lookupKV b.termFreqs term with
      | none =>
          simp only [hf] at h
          cases h
          refine ⟨rfl, rfl, rfl, rfl, rfl, .inr ⟨rfl, rfl⟩, ?_, ?_⟩
          · exact lookupKV_setKV_self _ _ _
          · exact hself _ (lookupKV_setKV_self _ _ _)
      | some v =>
          simp only [hf] at h
          by_cases h0 : v = 0
          · simp only [if_pos h0] at h
            cases h
            refine ⟨rfl, rfl, rfl, rfl, rfl, .inr ⟨rfl, rfl⟩, ?_, ?_⟩
            · exact lookupKV_setKV_self _ _ _
            · exact hself _ (lookupKV_setKV_self _ _ _)
          · simp only [if_neg h0] at h
            by_cases hn : v = b.corpusSize
            · simp only [if_pos hn] at h
              cases h
              refine ⟨rfl, rfl, rfl, rfl, rfl, .inr ⟨rfl, rfl⟩, ?_, ?_⟩
              · exact lookupKV_setKV_self _ _ _
              · exact hself _ (lookupKV_setKV_self _ _ _)
            · simp only [if_neg hn] at h
              cases h
              refine ⟨rfl, rfl, rfl, rfl, rfl, .inr ⟨rfl, rfl⟩, ?_, ?_⟩
              · exact lookupKV_setKV_self _ _ _
              · exact hself _ (lookupKV_setKV_self _ _ _)

/-- C7: `NewBM25Base` fails with `EmptyCorpus` on an empty input
sequence, with `NilTokenizer` when no tokenizer function is supplied,
and with `EmptyTokenization` naming the first offending document index
when the tokenizer returns zero tokens for some document; when none of
these conditions hold, construction succeeds. -/
theorem newBase_errors (corpus : List String)
    (tok : Option (String → List String)) :
    (corpus = [] → NewBM25Base corpus tok = .error .emptyCorpus) ∧
    (corpus ≠ [] → tok = none → NewBM25Base corpus tok = .error .nilTokenizer) ∧
    (∀ f, tok = some f → corpus ≠ [] →
      ∀ i, i < corpus.length → f (corpus.getD i "") = [] →
      (∀ j, j < i → f (corpus.getD j "") ≠ []) →
      NewBM25Base corpus tok = .error (.emptyTokenization i)) ∧
    (∀ f, tok = some f → corpus ≠ [] → (∀ d ∈ corpus, f d ≠ []) →
      ∃ b, NewBM25Base corpus tok = .ok b) := by
  refine ⟨?_, ?_, ?_, ?_⟩
  · intro h
    rw [NewBM25Base.eq_def, if_pos h]
  · intro hne htok
    subst htok
    rw [NewBM25Base.eq_def, if_neg hne]
  · intro f htok hne i hi hempty hfirst
    subst htok
    have herr := processDocs_error_at f corpus 0 i [] hi hempty hfirst
    rw [NewBM25Base, if_neg hne]
    simp only [herr, Nat.zero_add]
  · intro f htok hne hall
    subst htok
    obtain ⟨out, hout⟩ := processDocs_ok_of_all f corpus 0 [] hall
    obtain ⟨cs, lens, tot, tf⟩ := out
    rw [NewBM25Base, if_neg hne]
    refine ⟨{ corpus := cs, corpusSize := corpus.length,
              avgDocLen := (tot : ℝ) / (corpus.length : ℝ),
              docLengths := lens, termFreqs := tf, idfCache := [] }, ?_⟩
    simp only [hout]

/-- C8: after a successful construction from a corpus of `n` documents:
the corpus size is `n`, the recorded document lengths are the per-index
token counts, the average document length is the total token count
divided by the corpus size in exact (real) division — the arithmetic
mean of the document lengths — and the document-frequency table maps
each term to the number of distinct documents containing it at least
once, hence every stored frequency is at most `n`. -/
theorem newBase_stats (corpus : List String) (f : String → List String)
    (b : Bm25Base) (h : NewBM25Base corpus (some f) = .ok b) :
    b.corpusSize = corpus.length ∧
    b.corpus = corpus.map f ∧
    b.docLengths = corpus.map (fun d => (f d).length) ∧
    b.avgDocLen = ((b.docLengths.sum : ℝ)) / ((b.corpusSize : ℝ)) ∧
    (∀ t, getCount b.termFreqs t = corpus.countP (fun d => decide (t ∈ f d))) ∧
    (∀ t, getCount b.termFreqs t ≤ b.corpusSize) := by
  have hne : corpus ≠ [] := by
    intro he
    rw [NewBM25Base, if_pos he] at h
    cases h
  rw [NewBM25Base, if_neg hne] at h
  cases hp : processDocs f 0 corpus [] with
  | error e => rw [hp] at h; cases h
  | ok out =>
      obtain ⟨cs, lens, tot, tf⟩ := out
      rw [hp] at h
      cases h
      obtain ⟨h1, h2, h3, h4⟩ := processDocs_ok_char f corpus 0 [] cs lens tot tf hp
      subst h1; subst h2; subst h3; subst h4
      refine ⟨rfl, rfl, rfl, ?_, ?_, ?_⟩
      · simp
      · intro t
        have := getCount_foldDocs f corpus [] t
        simpa [getCount, lookupKV] using this
      · intro t
        have hcnt := getCount_foldDocs f corpus [] t
        have hc0 : getCount [] t = 0 := rfl
        rw [hc0, Nat.zero_add] at hcnt
        simp only [hcnt]
        exact List.countP_le_length _

/-- C10: after a successful construction every entry of the
document-frequency table has a count between `1` and `corpusSize`; the
`termFreq == 0` branch of `IDF` is therefore unreachable (a successful
lookup never yields zero), and the only way `IDF` returns `0.0` for a
non-empty term on the freshly constructed base is the absent-term
lookup miss. -/
theorem termFreqs_invariant (corpus : List String) (f : String → List String)
    (b : Bm25Base) (h : NewBM25Base corpus (some f) = .ok b) :
    (∀ p ∈ b.termFreqs, 1 ≤ p.2 ∧ p.2 ≤ b.corpusSize) ∧
    (∀ term termFreq, lookupKV b.termFreqs term = some termFreq → termFreq ≠ 0) ∧
    (∀ term b', term ≠ "" → IDF b term = .ok (0, b') →
      lookupKV b.termFreqs term = none) := by
  have hne : corpus ≠ [] := by
    intro he
    rw [NewBM25Base, if_pos he] at h
    cases h
  have hcache : b.idfCache = [] := by
    rw [NewBM25Base, if_neg hne] at h
    cases hp : processDocs f 0 corpus [] with
    | error e => rw [hp] at h; cases h
    | ok out =>
        obtain ⟨cs, lens, tot, tf⟩ := out
        rw [hp] at h
        cases h
        rfl
  have hstats := newBase_stats corpus f b h
  obtain ⟨hsize, _, _, _, hdf, hbound⟩ := hstats
  have htf : ∀ p ∈ b.termFreqs, 1 ≤ p.2 ∧ p.2 ≤ b.corpusSize := by
    have hnd : keysNodup b.termFreqs := by
      rw [NewBM25Base, if_neg hne] at h
      cases hp : processDocs f 0 corpus [] with
      | error e => rw [hp] at h; cases h
      | ok out =>
          obtain ⟨cs, lens, tot, tf⟩ := out
          rw [hp] at h
          cases h
          obtain ⟨_, _, _, h4⟩ := processDocs_ok_char f corpus 0 [] cs lens tot tf hp
          simp only
          rw [h4]
          exact foldDocs_keysNodup f corpus [] (by simp [keysNodup])
    have hpos : ∀ p ∈ b.termFreqs, 1 ≤ p.2 := by
      rw [NewBM25Base, if_neg hne] at h
      cases hp : processDocs f 0 corpus [] with
      | error e => rw [hp] at h; cases h
      | ok out =>
          obtain ⟨cs, lens, tot, tf⟩ := out
          rw [hp] at h
          cases h
          obtain ⟨_, _, _, h4⟩ := processDocs_ok_char f corpus 0 [] cs lens tot tf hp
          simp only
          rw [h4]
          exact foldDocs_pos f corpus [] (by simp)
    intro p hp
    refine ⟨hpos p hp, ?_⟩
    have hlk : lookupKV b.termFreqs p.1 = some p.2 :=
      lookupKV_of_mem b.termFreqs p.1 p.2 hnd (by simpa using hp)
    have : getCount b.termFreqs p.1 = p.2 := by
      rw [getCount, hlk]; rfl
    rw [← this]
    exact hbound p.1
  refine ⟨htf, ?_, ?_⟩
  · intro term termFreq hlk
    have hmem := lookupKV_mem b.termFreqs term termFreq hlk
    have := (htf (term, termFreq) hmem).1
    omega
  · intro term b' hterm hidf
    by_contra habs
    cases hf : lookupKV b.termFreqs term with
    | none => exact habs hf
    | some v =>
        have hmem := lookupKV_mem b.termFreqs term v hf
        obtain ⟨hv1, hv2⟩ := htf (term, v) hmem
        have hmiss : lookupKV b.idfCache term = none := by
          rw [hcache]; rfl
        by_cases hvn : v = b.corpusSize
        · have hall := idf_allDocsBranch b term v hterm hmiss hf hvn (by omega)
          rw [hall.1] at hidf
          have hzero := hidf
          simp only [Except.ok.injEq, Prod.mk.injEq] at hzero
          have hneg := hall.2.1
          linarith [hzero.1]
        · have hstd := idf_standardBranch b term v hterm hmiss hf (by omega)
            (by omega)
          rw [hstd.1] at hidf
          have hzero := hidf
          simp only [Except.ok.injEq, Prod.mk.injEq] at hzero
          have hposv := hstd.2
          linarith [hzero.1]

lemma getD_map_range {α : Type} (n d : Nat) (g : Nat → α) (x : α) (hd : d < n) :
    (((List.range n).map g).getD d x) = g d := by
  rw [List.getD_eq_getElem?_getD, List.getElem?_map, List.getElem?_range hd]
  rfl

lemma bm25lTerm_absent (s : BM25L) (t : String) (d : Nat)
    (h0 : termCount s d t = 0) : bm25lTerm s t d = 0 := by
  rw [bm25lTerm, h0]
  simp

/-- C1: `GetScores` fails with `EmptyQuery` on a query with zero tokens;
on a non-empty query it succeeds with a dense list whose length equals
the corpus size, whose entry for each document ID is the sum over query
terms of that term's per-document contribution, terms absent from a
document contributing `0` for that pair. -/
theorem getScores_contract (corpus : List String)
    (tok : Option (String → List String)) (k1 kb : ℝ) (s : BM25L)
    (hs : NewBM25L corpus tok k1 kb = .ok s) (query : List String) :
    (query = [] → GetScores s query = .error .emptyQuery) ∧
    (query ≠ [] → ∃ scores, GetScores s query = .ok scores ∧
      scores.length = s.base.corpusSize ∧
      (∀ d, d < scores.length →
        scores.getD d 0 = (query.map (fun t => bm25lTerm s t d)).sum) ∧
      (∀ t d, termCount s d t = 0 → bm25lTerm s t d = 0)) := by
  constructor
  · intro h
    rw [GetScores, if_pos h]
  · intro h
    refine ⟨(List.range s.base.corpusSize).map (docScore s query), ?_, ?_, ?_, ?_⟩
    · rw [GetScores, if_neg h]
    · simp
    · intro d hd
      simp only [List.length_map, List.length_range] at hd
      rw [getD_map_range _ _ _ _ hd, docScore]
    · exact fun t d h0 => bm25lTerm_absent s t d h0

/-- C3: `GetBatchScores` fails with `EmptyQuery` on an empty query, with
`EmptyDocumentIDs` on an empty ID list, and with `InvalidDocumentID`
naming an offending supplied ID when some ID is negative or at least the
corpus size; otherwise it succeeds with one score per supplied ID, in
the order supplied, each equal to the entry `GetScores` computes for
that document. -/
theorem getBatchScores_contract (corpus : List String)
    (tok : Option (String → List String)) (k1 kb : ℝ) (s : BM25L)
    (hs : NewBM25L corpus tok k1 kb = .ok s)
    (query : List String) (docIDs : List Int) :
    (query = [] → GetBatchScores s query docIDs = .error .emptyQuery) ∧
    (query ≠ [] → docIDs = [] →
      GetBatchScores s query docIDs = .error .emptyDocumentIDs) ∧
    (query ≠ [] → docIDs ≠ [] →
      (∃ id ∈ docIDs, id < 0 ∨ (s.base.corpusSize : Int) ≤ id) →
      ∃ bad, bad ∈ docIDs ∧ (bad < 0 ∨ (s.base.corpusSize : Int) ≤ bad) ∧
        GetBatchScores s query docIDs = .error (.invalidDocumentID bad)) ∧
    (query ≠ [] → docIDs ≠ [] →
      (∀ id ∈ docIDs, 0 ≤ id ∧ id < (s.base.corpusSize : Int)) →
      ∃ scores res, GetScores s query = .ok scores ∧
        GetBatchScores s query docIDs = .ok res ∧
        res.length = docIDs.length ∧
        (∀ i, i < docIDs.length →
          res.getD i 0 = scores.getD (docIDs.getD i 0).toNat 0)) := by
  refine ⟨?_, ?_, ?_, ?_⟩
  · intro h
    rw [GetBatchScores, if_pos h]
  · intro hq hd
    rw [GetBatchScores, if_neg hq, if_pos hd]
  · intro hq hd hbad
    have hsome : (docIDs.find?
        (fun id => decide (id < 0 ∨ (s.base.corpusSize : Int) ≤ id))).isSome := by
      rw [List.find?_isSome]
      obtain ⟨id, hmem, hid⟩ := hbad
      exact ⟨id, hmem, by simpa using hid⟩
    obtain ⟨bad, hfind⟩ := Option.isSome_iff_exists.mp hsome
    refine ⟨bad, List.mem_of_find?_eq_some hfind, ?_, ?_⟩
    · have := List.find?_some hfind
      simpa using this
    · rw [GetBatchScores, if_neg hq, if_neg hd]
      simp only [hfind]
  · intro hq hd hvalid
    have hnone : docIDs.find?
        (fun id => decide (id < 0 ∨ (s.base.corpusSize : Int) ≤ id)) = none := by
      rw [List.find?_eq_none]
      intro id hmem
      obtain ⟨h1, h2⟩ := hvalid id hmem
      simp only [decide_eq_true_eq]
      omega
    refine ⟨(List.range s.base.corpusSize).map (docScore s query),
      docIDs.map (fun id => docScore s query id.toNat), ?_, ?_, ?_, ?_⟩
    · rw [GetScores, if_neg hq]
    · rw [GetBatchScores, if_neg hq, if_neg hd]
      simp only [hnone]
    · simp
    · intro i hi
      have hidmem : docIDs.getD i 0 ∈ docIDs := by
        rw [List.getD_eq_getElem?_getD]
        cases hg : docIDs[i]? with
        | none => rw [List.getElem?_eq_none_iff] at hg; omega
        | some v =>
            simp only [hg, Option.getD_some]
            exact List.getElem?_mem hg
      obtain ⟨h1, h2⟩ := hvalid _ hidmem
      have hlt : (docIDs.getD i 0).toNat < s.base.corpusSize := by omega
      rw [getD_map_range _ _ _ _ hlt]
      rw [List.getD_eq_getElem?_getD, List.getElem?_map]
      cases hg : docIDs[i]? with
      | none => rw [List.getElem?_eq_none_iff] at hg; omega
      | some v =>
          have hD : docIDs.getD i 0 = v := by
            rw [List.getD_eq_getElem?_getD, hg]; rfl
          simp only [Option.map_some', Option.getD_some, hD]

/-- C2: `GetTopN` fails with `EmptyQuery` on an empty query and with
`InvalidN` when `n <= 0`; otherwise it returns the literal original text
of the `min(n, corpusSize)` best documents: there is a ranking of all
document IDs paired with their `GetScores` scores, sorted strictly
descending by score with ties broken by ascending document ID, and the
output is the original text of the first `n` entries of that ranking
(all of them when `n` exceeds the corpus size, with no error). -/
theorem getTopN_contract (corpus : List String)
    (tok : Option (String → List String)) (k1 kb : ℝ) (s : BM25L)
    (hs : NewBM25L corpus tok k1 kb = .ok s) (query : List String) (n : Int) :
    (query = [] → GetTopN s query n = .error .emptyQuery) ∧
    (query ≠ [] → n ≤ 0 → GetTopN s query n = .error .invalidN) ∧
    (query ≠ [] → 0 < n →
      ∃ scores ranked,
        GetScores s query = .ok scores ∧
        scores.length = s.base.corpusSize ∧
        List.Perm ranked
          ((List.range s.base.corpusSize).map (fun i => (i, scores.getD i 0))) ∧
        List.Sorted rankRel ranked ∧
        GetTopN s query n = .ok (((ranked.map Prod.fst).take n.toNat).map
          (fun i => s.rawCorpus.getD i "")) ∧
        (((ranked.map Prod.fst).take n.toNat).map
          (fun i => s.rawCorpus.getD i "")).length =
          min n.toNat s.base.corpusSize) := by
  refine ⟨?_, ?_, ?_⟩
  · intro h
    rw [GetTopN, if_pos h]
  · intro hq hn
    rw [GetTopN, if_neg hq, if_pos hn]
  · intro hq hn
    have hscores : GetScores s query =
        .ok ((List.range s.base.corpusSize).map (docScore s query)) := by
      rw [GetScores, if_neg hq]
    set scores := (List.range s.base.corpusSize).map (docScore s query) with hsc
    have hlen : scores.length = s.base.corpusSize := by
      rw [hsc, List.length_map, List.length_range]
    refine ⟨scores, List.insertionSort rankRel
      ((List.range scores.length).map (fun i => (i, scores.getD i 0))),
      hscores, hlen, ?_, ?_, ?_, ?_⟩
    · rw [hlen]
      exact List.perm_insertionSort rankRel _
    · exact List.sorted_insertionSort rankRel _
    · rw [GetTopN, if_neg hq, if_neg (by omega : ¬ n ≤ 0)]
      simp only [hscores]
      rfl
    · rw [List.length_map, List.length_take, List.length_map]
      have hslen : (List.insertionSort rankRel
          ((List.range scores.length).map (fun i => (i, scores.getD i 0)))).length =
          scores.length := by
        rw [(List.perm_insertionSort _ _).length_eq]
        rw [List.length_map, List.length_range]
      rw [hslen, hlen]

/-- A concrete tokenizer for witnesses, matching the repository tests'
whitespace split on the two-document test corpus. -/
def tok0 (s : String) : List String :=
  if s = "hello world" then ["hello", "world"] else ["this", "is", "a", "test"]

/-- The test corpus of the repository's BM25L tests. -/
def wCorpus : List String := ["hello world", "this is a test"]

/-- A small concrete base index used to witness the IDF branch
theorems. -/
noncomputable def wBase : Bm25Base :=
  { corpus := [["a"], ["a", "b"]]
    corpusSize := 2
    avgDocLen := ((3 : ℕ) : ℝ) / ((2 : ℕ) : ℝ)
    docLengths := [1, 2]
    termFreqs := [("a", 2), ("b", 1)]
    idfCache := [] }

/-- `wBase` after caching the IDF of the absent term `"c"`. -/
noncomputable def wBase2 : Bm25Base :=
  { wBase with idfCache := [("c", (0 : ℝ))] }

theorem idf_allDocsBranch_witness :
    IDF wBase "a" = .ok (Real.log (0.5 / (((2 : ℕ) : ℝ) + 0.5)),
      { wBase with idfCache := setKV wBase.idfCache "a" (Real.log
          (0.5 / (((2 : ℕ) : ℝ) + 0.5))) }) ∧
    Real.log (0.5 / (((2 : ℕ) : ℝ) + 0.5)) < 0 ∧
    lookupKV (setKV wBase.idfCache "a" (Real.log (0.5 / (((2 : ℕ) : ℝ) + 0.5))))
      "a" = some (Real.log (0.5 / (((2 : ℕ) : ℝ) + 0.5))) :=
  idf_allDocsBranch wBase "a" 2 (by decide) rfl rfl rfl (by decide)

theorem idf_standardBranch_witness :
    IDF wBase "b" = .ok (Real.log ((((wBase.corpusSize : ℝ) - ((1 : ℕ) : ℝ) + 0.5) /
        (((1 : ℕ) : ℝ) + 0.5)) + 1.0),
      { wBase with idfCache := setKV wBase.idfCache "b" (Real.log
          ((((wBase.corpusSize : ℝ) - ((1 : ℕ) : ℝ) + 0.5) /
            (((1 : ℕ) : ℝ) + 0.5)) + 1.0)) }) ∧
    0 < Real.log ((((wBase.corpusSize : ℝ) - ((1 : ℕ) : ℝ) + 0.5) /
        (((1 : ℕ) : ℝ) + 0.5)) + 1.0) :=
  idf_standardBranch wBase "b" 1 (by decide) rfl rfl (by decide) (by decide)

theorem idf_emptyTerm_absent_witness :
    IDF wBase "c" = .ok (0, { wBase with idfCache := setKV wBase.idfCache "c" 0 }) :=
  (idf_emptyTerm_absent wBase "c").2 (by decide) rfl rfl

theorem idf_frame_witness :
    wBase2.corpus = wBase.corpus ∧ wBase2.corpusSize = wBase.corpusSize ∧
    wBase2.avgDocLen = wBase.avgDocLen ∧ wBase2.docLengths = wBase.docLengths ∧
    wBase2.termFreqs = wBase.termFreqs ∧
    (wBase2.idfCache = wBase.idfCache ∨
      (lookupKV wBase.idfCache "c" = none ∧
        wBase2.idfCache = setKV wBase.idfCache "c" 0)) ∧
    lookupKV wBase2.idfCache "c" = some 0 ∧
    IDF wBase2 "c" = .ok (0, wBase2) :=
  idf_frame wBase "c" 0 wBase2 rfl

/-- The base index that construction produces on the test corpus. -/
noncomputable def cBase : Bm25Base :=
  { corpus := [["hello", "world"], ["this", "is", "a", "test"]]
    corpusSize := 2
    avgDocLen := ((6 : ℕ) : ℝ) / ((2 : ℕ) : ℝ)
    docLengths := [2, 4]
    termFreqs := [("hello", 1), ("world", 1), ("this", 1), ("is", 1),
      ("a", 1), ("test", 1)]
    idfCache := [] }

lemma newBase_wCorpus : NewBM25Base wCorpus (some tok0) = .ok cBase := rfl

theorem newBase_errors_witness :
    (∃ b, NewBM25Base wCorpus (some tok0) = .ok b) ∧
    NewBM25Base [] (some tok0) = .error .emptyCorpus ∧
    NewBM25Base wCorpus none = .error .nilTokenizer ∧
    NewBM25Base ["", "hello world"] (some (fun s => if s = "" then [] else [s]))
      = .error (.emptyTokenization 0) :=
  ⟨(newBase_errors wCorpus (some tok0)).2.2.2 tok0 rfl (by decide) (by decide),
   (newBase_errors [] (some tok0)).1 rfl,
   (newBase_errors wCorpus none).2.1 (by decide) rfl,
   (newBase_errors ["", "hello world"]
      (some (fun s => if s = "" then [] else [s]))).2.2.1
      (fun s => if s = "" then [] else [s]) rfl (by decide) 0 (by decide)
      (by decide) (by omega)⟩

theorem newBase_stats_witness :
    cBase.corpusSize = wCorpus.length ∧
    cBase.corpus = wCorpus.map tok0 ∧
    cBase.docLengths = wCorpus.map (fun d => (tok0 d).length) ∧
    cBase.avgDocLen = ((cBase.docLengths.sum : ℝ)) / ((cBase.corpusSize : ℝ)) ∧
    (∀ t, getCount cBase.termFreqs t =
      wCorpus.countP (fun d => decide (t ∈ tok0 d))) ∧
    (∀ t, getCount cBase.termFreqs t ≤ cBase.corpusSize) :=
  newBase_stats wCorpus tok0 cBase newBase_wCorpus

theorem termFreqs_invariant_witness :
    (∀ p ∈ cBase.termFreqs, 1 ≤ p.2 ∧ p.2 ≤ cBase.corpusSize) ∧
    (∀ term termFreq, lookupKV cBase.termFreqs term = some termFreq →
      termFreq ≠ 0) ∧
    (∀ term b', term ≠ "" → IDF cBase term = .ok (0, b') →
      lookupKV cBase.termFreqs term = none) :=
  termFreqs_invariant wCorpus tok0 cBase newBase_wCorpus

/-- The BM25L scorer the tests construct: test corpus, whitespace-split
tokens, `k1 = 1.2`, `b = 0.75`. -/
noncomputable def wScorer : BM25L :=
  { base := cBase, rawCorpus := wCorpus, k1 := 1.2, b := 0.75 }

lemma newL_wCorpus : NewBM25L wCorpus (some tok0) 1.2 0.75 = .ok wScorer := by
  rw [NewBM25L, if_neg (by norm_num : ¬ (1.2 : ℝ) < 0),
    if_neg (by norm_num : ¬ ((0.75 : ℝ) < 0 ∨ 1 < (0.75 : ℝ)))]
  simp only [newBase_wCorpus]
  rfl

theorem getScores_contract_witness :
    ∃ scores, GetScores wScorer ["hello"] = .ok scores ∧
      scores.length = wScorer.base.corpusSize ∧
      (∀ d, d < scores.length →
        scores.getD d 0 = ((["hello"].map (fun t => bm25lTerm wScorer t d)).sum)) ∧
      (∀ t d, termCount wScorer d t = 0 → bm25lTerm wScorer t d = 0) :=
  (getScores_contract wCorpus (some tok0) 1.2 0.75 wScorer newL_wCorpus
    ["hello"]).2 (by decide)

theorem getTopN_contract_witness :
    ∃ scores ranked,
      GetScores wScorer ["hello"] = .ok scores ∧
      scores.length = wScorer.base.corpusSize ∧
      List.Perm ranked
        ((List.range wScorer.base.corpusSize).map (fun i => (i, scores.getD i 0))) ∧
      List.Sorted rankRel ranked ∧
      GetTopN wScorer ["hello"] 1 = .ok (((ranked.map Prod.fst).take (1 : Int).toNat).map
        (fun i => wScorer.rawCorpus.getD i "")) ∧
      (((ranked.map Prod.fst).take (1 : Int).toNat).map
        (fun i => wScorer.rawCorpus.getD i "")).length =
        min (1 : Int).toNat wScorer.base.corpusSize :=
  (getTopN_contract wCorpus (some tok0) 1.2 0.75 wScorer newL_wCorpus
    ["hello"] 1).2.2 (by decide) (by decide)

theorem getBatchScores_contract_witness :
    ∃ scores res, GetScores wScorer ["hello"] = .ok scores ∧
      GetBatchScores wScorer ["hello"] [0] = .ok res ∧
      res.length = ([0] : List Int).length ∧
      (∀ i, i < ([0] : List Int).length →
        res.getD i 0 = scores.getD (([0] : List Int).getD i 0).toNat 0) :=
  (getBatchScores_contract wCorpus (some tok0) 1.2 0.75 wScorer newL_wCorpus
    ["hello"] [0]).2.2.2 (by decide) (by decide) (by decide)
